import Mathlib

/-!
Shallow embedding of the `loop_modeling` repository's numerical core
(`libraries/rmsdCalculator.py`) and of the input-validation logic of
`kickoff.py`, together with theorems checking the specification's claims.

Numbers are modelled over an arbitrary linear ordered field `K`
(instantiated at `ℚ` for executable witnesses and at `ℝ` where the code
takes a square root).  `np.linalg.svd` is an external library call; it is
modelled as an explicit function parameter `svd`, and theorems about the
output of `get_superimpose_transformation` assume the standard contract of
a singular value decomposition for the value `svd` returns.
-/

namespace LoopModeling

open Matrix

section RmsdCalculator

variable {K : Type} [LinearOrderedField K]

/-- A 3D point (one row of the numpy arrays used by `rmsdCalculator.py`). -/
abbrev Pt (K : Type) := Fin 3 → K

/-- A 3x3 real matrix, as used for rotations and for the cross-covariance. -/
abbrev Mat3 (K : Type) := Matrix (Fin 3) (Fin 3) K

/-- Squared Euclidean norm of a 3-vector. -/
def sq3 (v : Pt K) : K := ∑ j : Fin 3, v j * v j

/-- Dot product of two 3-vectors. -/
def dot3 (u v : Pt K) : K := ∑ j : Fin 3, u j * v j

/-- Squared Euclidean distance between two 3D points. -/
def sqDist (u v : Pt K) : K := ∑ j : Fin 3, (u j - v j) * (u j - v j)

/-- Embedding of `np.mean(P, axis=0)`: the componentwise mean (centroid) of a
list of points. -/
def com (P : List (Pt K)) : Pt K :=
  fun j => ((P.map (fun p => p j)).sum) / (P.length : K)

/-- Embedding of `R = np.dot(np.transpose(np.array(P1) - com1), np.array(P2) - com2)`
from `get_superimpose_transformation`: the 3x3 cross-covariance matrix of the two
mean-centered point lists, written entrywise. -/
def crossCovariance (P1 P2 : List (Pt K)) : Mat3 K :=
  fun j k => ∑ i ∈ Finset.range P1.length,
    ((P1.getD i 0) j - com P1 j) * ((P2.getD i 0) k - com P2 k)

/-- Result triple of `np.linalg.svd`: matrices `V`, `W` and the vector `S` of
singular values, with (per the numpy contract) `R = V * diagonal S * W`. -/
structure SVDResult (K : Type) where
  V : Mat3 K
  S : Fin 3 → K
  W : Mat3 K

/-- Embedding of the statement `V[:, -1] = -V[:, -1]`: negate the last column. -/
def negLastColumn (V : Mat3 K) : Mat3 K :=
  fun i j => if j = 2 then -(V i j) else V i j

/-- The left factor actually used by `get_superimpose_transformation`: the
matrix `V` of the SVD with its last column negated exactly when
`np.linalg.det(V) * np.linalg.det(W) < 0.0`. -/
def branchV (res : SVDResult K) : Mat3 K :=
  if res.V.det * res.W.det < 0 then negLastColumn res.V else res.V

/-- Embedding of `get_superimpose_transformation(P1, P2)`.  The external
`np.linalg.svd` is passed in as `svd`.  The `Exception` raised when the two
point lists have different lengths is modelled by `none`; so is the
`LinAlgError` raised on equal-length empty inputs, where the length check
passes but `R = np.dot` of two empty 1-D arrays degenerates to a
0-dimensional scalar that `np.linalg.svd` rejects. -/
def get_superimpose_transformation (svd : Mat3 K → SVDResult K)
    (P1 P2 : List (Pt K)) : Option (Mat3 K × Pt K) :=
  if P1.length ≠ P2.length then none
  else if P1.length = 0 then none
  else
    let com1 := com P1
    let com2 := com P2
    let res := svd (crossCovariance P1 P2)
    let M := (branchV res * res.W)ᵀ
    some (M, com2 - M.mulVec com1)

/-- The numpy contract for `V, S, W = np.linalg.svd(R)`: both factors are
orthogonal, the decomposition reconstructs `R`, and the singular values are
nonnegative and sorted in descending order. -/
def IsSVD (R : Mat3 K) (res : SVDResult K) : Prop :=
  res.Vᵀ * res.V = 1 ∧ res.Wᵀ * res.W = 1 ∧
  R = res.V * Matrix.diagonal res.S * res.W ∧
  (∀ i : Fin 3, 0 ≤ res.S i) ∧
  (∀ i j : Fin 3, i ≤ j → res.S j ≤ res.S i)

/-- Sum of squared Euclidean distances between the transformed points of `P1`
and the corresponding points of `P2`: the quantity that the Kabsch algorithm
minimises over rigid transformations `(M, t)`. -/
def sumSqDist (P1 P2 : List (Pt K)) (M : Mat3 K) (t : Pt K) : K :=
  ∑ i ∈ Finset.range P1.length,
    sq3 (M.mulVec (P1.getD i 0) + t - P2.getD i 0)

/-- The mean-centered coordinate array `np.array(P) - com` as an
`n x 3` matrix. -/
def centeredMatrix (P : List (Pt K)) : Matrix (Fin P.length) (Fin 3) K :=
  fun i j => P.get i j - com P j

/-- A degenerate but contract-conforming SVD of the zero matrix, used to
instantiate theorems about `get_superimpose_transformation` at concrete
inputs whose cross-covariance vanishes. -/
def svdTrivial : Mat3 K → SVDResult K := fun _ => ⟨1, 0, 1⟩

/-- A Bio.PDB atom, reduced to the two observations the code makes of it:
`atom.get_name()` and `atom.get_coord()`. -/
structure Atom (K : Type) where
  name : String
  coord : Pt K

/-- A Bio.PDB residue, as iterated over by the code: its list of atoms. -/
abbrev Residue (K : Type) := List (Atom K)

/-- The list `valid_atoms = ['N', 'CA', 'C', 'O']` of backbone atom names. -/
def validAtoms : List String := ["N", "CA", "C", "O"]

/-- Embedding of the inner helper `get_bb_coords_by_rosetta_ids` of
`get_align_transformation_for_two_list_of_residues`: the nested
`for residue / for atom / if name in valid_atoms: coords.append(...)` loops,
as left folds accumulating the list of collected coordinates. -/
def get_bb_coords_by_rosetta_ids (residue_list : List (Residue K)) : List (Pt K) :=
  residue_list.foldl
    (fun acc residue => residue.foldl
      (fun acc2 atom => if atom.name ∈ validAtoms then acc2 ++ [atom.coord] else acc2)
      acc)
    []

/-- Embedding of `get_align_transformation_for_two_list_of_residues`: the
`assert` on equal lengths is modelled by `none`, then the superposition of the
two collected backbone-coordinate lists is returned. -/
def get_align_transformation_for_two_list_of_residues (svd : Mat3 K → SVDResult K)
    (residue_list1 residue_list2 : List (Residue K)) : Option (Mat3 K × Pt K) :=
  if residue_list1.length ≠ residue_list2.length then none
  else get_superimpose_transformation svd
    (get_bb_coords_by_rosetta_ids residue_list1)
    (get_bb_coords_by_rosetta_ids residue_list2)

/-- The state of an `RMSDCalculator` object: the two stored coordinate arrays
`self.coord1` and `self.coord2`. -/
structure RMSDCalculator (K : Type) where
  coord1 : List (Pt K)
  coord2 : List (Pt K)

/-- Embedding of `RMSDCalculator.__init__`: one pass over `residue_id_list`,
appending to `c1` the coordinates of the backbone atoms of
`residue_list1[residue - 1]` and to `c2` those of `residue_list2[residue - 1]`,
in loop order. -/
def mkRMSDCalculator (residue_list1 residue_list2 : List (Residue K))
    (residue_id_list : List Nat) : RMSDCalculator K :=
  let cs := residue_id_list.foldl
    (fun (acc : List (Pt K) × List (Pt K)) residue =>
      let c1 := (residue_list1.getD (residue - 1) []).foldl
        (fun a atom => if atom.name ∈ validAtoms then a ++ [atom.coord] else a) acc.1
      let c2 := (residue_list2.getD (residue - 1) []).foldl
        (fun a atom => if atom.name ∈ validAtoms then a ++ [atom.coord] else a) acc.2
      (c1, c2))
    ([], [])
  ⟨cs.1, cs.2⟩

/-- The array `diff` computed by `RMSDCalculator.rmsd`: either
`self.coord1 - self.coord2`, or, when a transformation `(M, t)` is given,
`[np.dot(M, c) + t for c in self.coord1] - self.coord2`. -/
def RMSDCalculator.diffRows (c : RMSDCalculator ℝ)
    (transformation : Option (Mat3 ℝ × Pt ℝ)) : List (Pt ℝ) :=
  match transformation with
  | none => List.zipWith (fun a b => a - b) c.coord1 c.coord2
  | some (M, t) =>
      List.zipWith (fun a b => a - b)
        (c.coord1.map (fun p => M.mulVec p + t)) c.coord2

/-- Embedding of `RMSDCalculator.rmsd`:
`np.sqrt(sum(sum(np.multiply(diff, diff))) / l)` with `l = diff.shape[0]`.
The inner `sum` reduces over rows (numpy axis 0), the outer over the three
columns. -/
noncomputable def RMSDCalculator.rmsd (c : RMSDCalculator ℝ)
    (transformation : Option (Mat3 ℝ × Pt ℝ)) : ℝ :=
  let diff := c.diffRows transformation
  Real.sqrt ((∑ j : Fin 3, (diff.map (fun d => d j * d j)).sum) / (diff.length : ℝ))

/-- Embedding of a call to the method `RMSDCalculator.rmsd` as a state
transformer on the object: the method body reads `self.coord1` and
`self.coord2` but contains no assignment to `self`, so the resulting object
state is the input state and the returned value is `rmsd`. -/
noncomputable def RMSDCalculator.rmsdCall (c : RMSDCalculator ℝ)
    (transformation : Option (Mat3 ℝ × Pt ℝ)) : RMSDCalculator ℝ × ℝ :=
  (c, c.rmsd transformation)

end RmsdCalculator

section Kickoff

/-- A row of the `Benchmarks` table as populated by `run_benchmark`, together
with its associated `BenchmarkInputs` rows (`input_pdbs`). -/
structure BenchmarkRow where
  name : String
  script : String
  user : String
  desc : Option String
  vars : List String
  flags : Option String
  fast : Bool
  input_pdbs : List String
  deriving DecidableEq

/-- The external state touched by `run_benchmark`: the database tables and the
jobs submitted to the cluster via `qsub` (benchmark id and task count). -/
structure BenchState where
  benchmarks : List BenchmarkRow
  submitted_jobs : List (Nat × Nat)
  deriving DecidableEq

/-- Embedding of `run_benchmark(name, script, pdbs, ...)` from `kickoff.py` as
an explicit state transformer.  `fsExists` models `os.path.exists` and `user`
models `getpass.getuser()`.  The returned `Option String` is the raised
`ValueError` message, `none` on success.  The function sorts the pdb list,
validates every path before opening the database connection, then creates the
`Benchmarks` row with one `BenchmarkInputs` row per pdb, and finally submits a
`qsub` array job of `(nstruct or (10 if fast else 500)) * len(pdbs)` tasks. -/
def run_benchmark (fsExists : String → Bool) (user : String)
    (name script : String) (pdbs0 : List String) (vars : List String)
    (flags : Option String) (nstruct : Option Nat) (desc : Option String)
    (fast : Bool) (st : BenchState) : BenchState × Option String :=
  let pdbs := pdbs0.mergeSort (fun a b => decide (a ≤ b))
  match pdbs.find? (fun p => !(fsExists p)) with
  | some p => (st, some ("ValueError: " ++ p ++ " does not exist."))
  | none =>
      let benchmark : BenchmarkRow :=
        { name := name, script := script, user := user, desc := desc,
          vars := vars, flags := flags, fast := fast, input_pdbs := pdbs }
      let st1 : BenchState := { st with benchmarks := st.benchmarks ++ [benchmark] }
      let benchmark_id := st1.benchmarks.length
      let ntasks := (nstruct.getD (if fast then 10 else 500)) * pdbs.length
      ({ st1 with submitted_jobs := st1.submitted_jobs ++ [(benchmark_id, ntasks)] },
       none)

end Kickoff

/-! ### Helper lemmas about orthogonal 3x3 matrices and the SVD branch -/

section OrthLemmas

variable {K : Type} [LinearOrderedField K]

theorem orth_det_sq {A : Mat3 K} (hA : Aᵀ * A = 1) : A.det = 1 ∨ A.det = -1 := by
  have h : A.det * A.det = 1 := by
    have h2 := congrArg Matrix.det hA
    rwa [Matrix.det_mul, Matrix.det_transpose, Matrix.det_one] at h2
  exact mul_self_eq_one_iff.mp h

theorem negLastColumn_eq_mul (V : Mat3 K) :
    negLastColumn V = V * Matrix.diagonal ![1, 1, -1] := by
  ext i j
  rw [Matrix.mul_diagonal]
  fin_cases j <;> simp [negLastColumn]

theorem diagSign_orth :
    (Matrix.diagonal ![1, 1, -1] : Mat3 K)ᵀ * Matrix.diagonal ![1, 1, -1] = 1 := by
  rw [Matrix.diagonal_transpose, Matrix.diagonal_mul_diagonal]
  have h : (fun j => (![1, 1, -1] : Fin 3 → K) j * ![1, 1, -1] j) = fun _ => (1 : K) := by
    funext j; fin_cases j <;> norm_num
  rw [h, Matrix.diagonal_one]

theorem diagSign_det : (Matrix.diagonal ![1, 1, -1] : Mat3 K).det = -1 := by
  rw [Matrix.det_diagonal, Fin.prod_univ_three]
  norm_num

theorem orth_mul {A B : Mat3 K} (hA : Aᵀ * A = 1) (hB : Bᵀ * B = 1) :
    (A * B)ᵀ * (A * B) = 1 := by
  rw [Matrix.transpose_mul, mul_assoc, ← mul_assoc Aᵀ A B, hA, one_mul, hB]

theorem orth_comm {A : Mat3 K} (hA : Aᵀ * A = 1) : A * Aᵀ = 1 :=
  Matrix.mul_eq_one_comm.mp hA

theorem branchV_orth {res : SVDResult K} (hV : res.Vᵀ * res.V = 1) :
    (branchV res)ᵀ * branchV res = 1 := by
  unfold branchV
  split
  · rw [negLastColumn_eq_mul]; exact orth_mul hV diagSign_orth
  · exact hV

theorem branchV_W_det {res : SVDResult K} (hV : res.Vᵀ * res.V = 1)
    (hW : res.Wᵀ * res.W = 1) : (branchV res * res.W).det = 1 := by
  unfold branchV
  by_cases hc : res.V.det * res.W.det < 0
  · rw [if_pos hc, negLastColumn_eq_mul, Matrix.det_mul, Matrix.det_mul,
      diagSign_det]
    rcases orth_det_sq hV with hv | hv <;> rcases orth_det_sq hW with hw | hw <;>
      rw [hv, hw] at hc ⊢ <;> norm_num at hc ⊢
  · rw [if_neg hc, Matrix.det_mul]
    rcases orth_det_sq hV with hv | hv <;> rcases orth_det_sq hW with hw | hw <;>
      rw [hv, hw] at hc ⊢ <;> norm_num at hc ⊢

theorem kabsch_M_proper {res : SVDResult K} (hV : res.Vᵀ * res.V = 1)
    (hW : res.Wᵀ * res.W = 1) :
    ((branchV res * res.W)ᵀ)ᵀ * (branchV res * res.W)ᵀ = 1 ∧
      ((branchV res * res.W)ᵀ).det = 1 := by
  constructor
  · rw [Matrix.transpose_transpose]
    exact orth_comm (orth_mul (branchV_orth hV) hW)
  · rw [Matrix.det_transpose]
    exact branchV_W_det hV hW

theorem get_superimpose_eq_some {svd : Mat3 K → SVDResult K} {P1 P2 : List (Pt K)}
    {M : Mat3 K} {t : Pt K}
    (hout : get_superimpose_transformation svd P1 P2 = some (M, t)) :
    P1.length = P2.length ∧ P1 ≠ [] ∧
    M = (branchV (svd (crossCovariance P1 P2)) * (svd (crossCovariance P1 P2)).W)ᵀ ∧
    t = com P2 - M.mulVec (com P1) := by
  unfold get_superimpose_transformation at hout
  by_cases h : P1.length ≠ P2.length
  · rw [if_pos h] at hout; exact absurd hout (by simp)
  · rw [if_neg h] at hout
    by_cases h0 : P1.length = 0
    · rw [if_pos h0] at hout; exact absurd hout (by simp)
    · rw [if_neg h0] at hout
      simp only [Option.some.injEq, Prod.mk.injEq] at hout
      obtain ⟨hM, ht⟩ := hout
      exact ⟨not_not.mp h, fun he => h0 (by rw [he]; rfl), hM.symm,
        by rw [← hM]; exact ht.symm⟩

end OrthLemmas

/-! ### Concrete evaluation lemmas used by the witnesses -/

section WitnessSupport

variable {K : Type} [LinearOrderedField K]

theorem com_singleton (p : Pt K) : com [p] = p := by
  funext j; simp [com]

theorem crossCovariance_single (p q : Pt K) : crossCovariance [p] [q] = 0 := by
  ext j k
  simp [crossCovariance, com_singleton]

theorem isSVD_trivial_zero : IsSVD (0 : Mat3 K) (svdTrivial 0) := by
  refine ⟨by simp [svdTrivial], by simp [svdTrivial], ?_,
    fun i => le_refl 0, fun i j _ => le_refl 0⟩
  show (0 : Mat3 K) = (1 : Mat3 K) * Matrix.diagonal (fun _ => (0 : K)) * 1
  simp

theorem get_superimpose_trivial (p q : Pt K) :
    get_superimpose_transformation svdTrivial [p] [q] = some (1, q - p) := by
  unfold get_superimpose_transformation
  rw [if_neg (by simp), if_neg (by simp)]
  have hb : ∀ R : Mat3 K, branchV (svdTrivial R) = 1 := by
    intro R
    unfold branchV svdTrivial
    rw [if_neg (by simp)]
  have hw : ∀ R : Mat3 K, (svdTrivial R).W = 1 := fun _ => rfl
  simp only [hb, hw, Matrix.one_mul, Matrix.transpose_one, Option.some.injEq,
    Prod.mk.injEq, Matrix.one_mulVec, com_singleton]

end WitnessSupport

/-! ### Theorems for the claims about `get_superimpose_transformation` -/

section SuperimposeClaims

variable {K : Type} [LinearOrderedField K]

/-- C2: in `get_superimpose_transformation`, after the SVD `V, S, W` of the
cross-covariance matrix, the left factor actually used is `V` with its last
column negated exactly when `det(V) * det(W) < 0`, and consequently the
returned matrix `M = transpose(V * W)` is orthogonal with determinant `+1`
(a proper rotation, never a reflection). -/
theorem superimpose_returns_proper_rotation {svd : Mat3 K → SVDResult K}
    {P1 P2 : List (Pt K)} {M : Mat3 K} {t : Pt K}
    (hV : (svd (crossCovariance P1 P2)).Vᵀ * (svd (crossCovariance P1 P2)).V = 1)
    (hW : (svd (crossCovariance P1 P2)).Wᵀ * (svd (crossCovariance P1 P2)).W = 1)
    (hout : get_superimpose_transformation svd P1 P2 = some (M, t)) :
    branchV (svd (crossCovariance P1 P2)) =
      (if (svd (crossCovariance P1 P2)).V.det * (svd (crossCovariance P1 P2)).W.det < 0
       then negLastColumn (svd (crossCovariance P1 P2)).V
       else (svd (crossCovariance P1 P2)).V) ∧
    M = (branchV (svd (crossCovariance P1 P2)) * (svd (crossCovariance P1 P2)).W)ᵀ ∧
    Mᵀ * M = 1 ∧ M.det = 1 := by
  obtain ⟨-, -, hM, -⟩ := get_superimpose_eq_some hout
  refine ⟨rfl, hM, ?_, ?_⟩
  · rw [hM]; exact (kabsch_M_proper hV hW).1
  · rw [hM]; exact (kabsch_M_proper hV hW).2

theorem superimpose_returns_proper_rotation_witness :
    (1 : Mat3 ℚ)ᵀ * 1 = 1 ∧ (1 : Mat3 ℚ).det = 1 := by
  have h := @superimpose_returns_proper_rotation ℚ _ svdTrivial
    [fun _ => 0] [fun _ => 0] 1 ((fun _ => 0) - fun _ => 0)
    (by simp [svdTrivial]) (by simp [svdTrivial])
    (get_superimpose_trivial (fun _ => 0) (fun _ => 0))
  exact ⟨h.2.2.1, h.2.2.2⟩

/-- C5: the pair `(M, t)` returned by `get_superimpose_transformation`
satisfies `t = com2 - M * com1`, so the composed transformation maps the
centroid of `P1` exactly onto the centroid of `P2`. -/
theorem superimpose_translation_matches_centroids {svd : Mat3 K → SVDResult K}
    {P1 P2 : List (Pt K)} {M : Mat3 K} {t : Pt K} (hne : P1 ≠ [])
    (hout : get_superimpose_transformation svd P1 P2 = some (M, t)) :
    t = com P2 - M.mulVec (com P1) ∧ M.mulVec (com P1) + t = com P2 := by
  obtain ⟨-, -, -, ht⟩ := get_superimpose_eq_some hout
  refine ⟨ht, ?_⟩
  rw [ht]; abel

theorem superimpose_translation_matches_centroids_witness :
    (((fun _ => 1) - fun _ => 0 : Pt ℚ) =
      com [fun _ => 1] - (1 : Mat3 ℚ).mulVec (com [fun _ => 0])) ∧
    (1 : Mat3 ℚ).mulVec (com [fun _ => 0]) + ((fun _ => 1) - fun _ => 0 : Pt ℚ) =
      com [fun _ => 1] :=
  superimpose_translation_matches_centroids (by simp)
    (get_superimpose_trivial (fun _ => 0) (fun _ => 1))

/-- C6, counterexample: the claimed iff fails on the code at the equal-length
input `P1 = P2 = []`: the length check passes, yet the program still raises,
because `np.linalg.svd` rejects the degenerate 0-dimensional `R` computed
from the two empty coordinate arrays. -/
theorem get_superimpose_empty_raises :
    (([] : List (Pt ℚ)).length = ([] : List (Pt ℚ)).length) ∧
    get_superimpose_transformation (K := ℚ) svdTrivial [] [] = none :=
  ⟨rfl, rfl⟩

/-- C6 (amended): `get_superimpose_transformation(P1, P2)` raises (returns
`none`) if and only if the two point lists have different lengths or both are
empty; for equal-length non-empty inputs it never raises and returns a
matrix-vector pair. -/
theorem get_superimpose_raises_iff (svd : Mat3 K → SVDResult K)
    (P1 P2 : List (Pt K)) :
    (get_superimpose_transformation svd P1 P2 = none ↔
      P1.length ≠ P2.length ∨ (P1 = [] ∧ P2 = [])) ∧
    (P1.length = P2.length → P1 ≠ [] →
      ∃ M t, get_superimpose_transformation svd P1 P2 = some (M, t)) := by
  unfold get_superimpose_transformation
  by_cases h : P1.length ≠ P2.length
  · rw [if_pos h]
    exact ⟨⟨fun _ => Or.inl h, fun _ => rfl⟩, fun hl _ => absurd hl h⟩
  · rw [if_neg h]
    have hlen : P1.length = P2.length := not_not.mp h
    by_cases h0 : P1.length = 0
    · rw [if_pos h0]
      refine ⟨⟨fun _ => Or.inr ⟨List.length_eq_zero.mp h0,
          List.length_eq_zero.mp (by rw [← hlen]; exact h0)⟩, fun _ => rfl⟩,
        fun _ hne => absurd (List.length_eq_zero.mp h0) hne⟩
    · rw [if_neg h0]
      constructor
      · constructor
        · intro hc; exact absurd hc (by simp)
        · rintro (hc | ⟨h1, h2⟩)
          · exact absurd hlen hc
          · exact absurd (by rw [h1]; rfl) h0
      · intro _ _
        exact ⟨_, _, rfl⟩

theorem get_superimpose_raises_iff_witness :
    (get_superimpose_transformation (K := ℚ) svdTrivial [fun _ => 0] [fun _ => 0]
        = none ↔
      ([fun _ => 0] : List (Pt ℚ)).length ≠ ([fun _ => 0] : List (Pt ℚ)).length ∨
        (([fun _ => 0] : List (Pt ℚ)) = [] ∧ ([fun _ => 0] : List (Pt ℚ)) = [])) ∧
    (([fun _ => 0] : List (Pt ℚ)).length = ([fun _ => 0] : List (Pt ℚ)).length →
      ([fun _ => 0] : List (Pt ℚ)) ≠ [] →
      ∃ M t, get_superimpose_transformation (K := ℚ) svdTrivial
        [fun _ => 0] [fun _ => 0] = some (M, t)) :=
  get_superimpose_raises_iff svdTrivial [fun _ => 0] [fun _ => 0]

/-- C7: a call of the method `RMSDCalculator.rmsd` leaves the stored fields
`coord1` and `coord2` unchanged, so repeated calls with the same argument
return the same value. -/
theorem rmsd_call_stateless (c : RMSDCalculator ℝ) (tr : Option (Mat3 ℝ × Pt ℝ)) :
    (c.rmsdCall tr).1 = c ∧
    (c.rmsdCall tr).1.coord1 = c.coord1 ∧
    (c.rmsdCall tr).1.coord2 = c.coord2 ∧
    ((c.rmsdCall tr).1.rmsdCall tr).2 = (c.rmsdCall tr).2 :=
  ⟨rfl, rfl, rfl, rfl⟩

end SuperimposeClaims

/-! ### List-level helper lemmas -/

section ListLemmas

variable {K : Type} [LinearOrderedField K]

theorem map_sum_eq_sum_range {α M : Type} [AddCommMonoid M] (f : α → M) (d : α) :
    ∀ l : List α, (l.map f).sum = ∑ i ∈ Finset.range l.length, f (l.getD i d)
  | [] => by simp
  | a :: l => by
    rw [List.map_cons, List.sum_cons, List.length_cons, Finset.sum_range_succ']
    simp only [List.getD_cons_succ, List.getD_cons_zero]
    rw [map_sum_eq_sum_range f d l, add_comm]

theorem bbFold_eq :
    ∀ (residue : List (Atom K)) (acc : List (Pt K)),
      residue.foldl
        (fun a atom => if atom.name ∈ validAtoms then a ++ [atom.coord] else a) acc
        = acc ++ (residue.filter
            (fun atom => decide (atom.name ∈ validAtoms))).map Atom.coord
  | [], acc => by simp
  | atom :: rest, acc => by
    rw [List.foldl_cons, List.filter_cons]
    by_cases h : atom.name ∈ validAtoms
    · rw [if_pos h, bbFold_eq rest (acc ++ [atom.coord]),
        if_pos (by simpa using h), List.map_cons]
      simp [List.append_assoc]
    · rw [if_neg h, bbFold_eq rest acc, if_neg (by simpa using h)]

theorem get_bb_coords_eq (residue_list : List (Residue K)) :
    get_bb_coords_by_rosetta_ids residue_list =
      residue_list.flatMap (fun r =>
        (r.filter (fun atom => decide (atom.name ∈ validAtoms))).map Atom.coord) := by
  unfold get_bb_coords_by_rosetta_ids
  suffices h : ∀ (rl : List (Residue K)) (acc : List (Pt K)),
      rl.foldl (fun acc residue => residue.foldl
        (fun acc2 atom => if atom.name ∈ validAtoms then acc2 ++ [atom.coord] else acc2)
        acc) acc
      = acc ++ rl.flatMap (fun r =>
          (r.filter (fun atom => decide (atom.name ∈ validAtoms))).map Atom.coord) by
    simpa using h residue_list []
  intro rl
  induction rl with
  | nil => intro acc; simp
  | cons r rest ih =>
    intro acc
    rw [List.foldl_cons, bbFold_eq, ih, List.flatMap_cons, List.append_assoc]

theorem mkRMSDCalculator_coords (residue_list1 residue_list2 : List (Residue K))
    (residue_id_list : List Nat) :
    (mkRMSDCalculator residue_list1 residue_list2 residue_id_list).coord1 =
      residue_id_list.flatMap (fun residue =>
        ((residue_list1.getD (residue - 1) []).filter
          (fun atom => decide (atom.name ∈ validAtoms))).map Atom.coord) ∧
    (mkRMSDCalculator residue_list1 residue_list2 residue_id_list).coord2 =
      residue_id_list.flatMap (fun residue =>
        ((residue_list2.getD (residue - 1) []).filter
          (fun atom => decide (atom.name ∈ validAtoms))).map Atom.coord) := by
  unfold mkRMSDCalculator
  suffices h : ∀ (ids : List Nat) (acc : List (Pt K) × List (Pt K)),
      ids.foldl (fun (acc : List (Pt K) × List (Pt K)) residue =>
        ((residue_list1.getD (residue - 1) []).foldl
          (fun a atom => if atom.name ∈ validAtoms then a ++ [atom.coord] else a) acc.1,
         (residue_list2.getD (residue - 1) []).foldl
          (fun a atom => if atom.name ∈ validAtoms then a ++ [atom.coord] else a) acc.2)) acc
      = (acc.1 ++ ids.flatMap (fun residue =>
           ((residue_list1.getD (residue - 1) []).filter
             (fun atom => decide (atom.name ∈ validAtoms))).map Atom.coord),
         acc.2 ++ ids.flatMap (fun residue =>
           ((residue_list2.getD (residue - 1) []).filter
             (fun atom => decide (atom.name ∈ validAtoms))).map Atom.coord)) by
    have h2 := h residue_id_list ([], [])
    simp only [List.nil_append] at h2
    exact ⟨by rw [h2], by rw [h2]⟩
  intro ids
  induction ids with
  | nil => intro acc; simp
  | cons rid rest ih =>
    intro acc
    rw [List.foldl_cons, ih]
    simp only [bbFold_eq, List.flatMap_cons, List.append_assoc]

theorem zipWith_sub_getD {as bs : List (Pt K)} {i : ℕ}
    (ha : i < as.length) (hb : i < bs.length) :
    (List.zipWith (fun a b => a - b) as bs).getD i 0 = as.getD i 0 - bs.getD i 0 := by
  have hz : i < (List.zipWith (fun a b : Pt K => a - b) as bs).length := by
    rw [List.length_zipWith]; omega
  rw [List.getD_eq_getElem _ _ hz, List.getD_eq_getElem _ _ ha,
    List.getD_eq_getElem _ _ hb]
  exact List.getElem_zipWith

end ListLemmas

/-! ### Theorems for the claims about cross-covariance, atom selection and rmsd -/

section MoreClaims

variable {K : Type} [LinearOrderedField K]

/-- C4: for equal-length point lists, `get_superimpose_transformation`
mean-centers both lists and the matrix it decomposes by SVD is the
cross-covariance matrix `transpose(P1 - com1) * (P2 - com2)`, whose `(j, k)`
entry is the sum over `i` of `(P1[i][j] - com1[j]) * (P2[i][k] - com2[k])`. -/
theorem crossCovariance_is_centered_product (P1 P2 : List (Pt K))
    (hlen : P1.length = P2.length) :
    crossCovariance P1 P2 =
      (centeredMatrix P1)ᵀ * (centeredMatrix P2).submatrix (Fin.cast hlen) id ∧
    ∀ j k, crossCovariance P1 P2 j k =
      ∑ i ∈ Finset.range P1.length,
        ((P1.getD i 0) j - com P1 j) * ((P2.getD i 0) k - com P2 k) := by
  refine ⟨?_, fun j k => rfl⟩
  ext j k
  rw [Matrix.mul_apply]
  show (∑ i ∈ Finset.range P1.length,
      ((P1.getD i 0) j - com P1 j) * ((P2.getD i 0) k - com P2 k)) = _
  rw [← Fin.sum_univ_eq_sum_range
    (fun i => ((P1.getD i 0) j - com P1 j) * ((P2.getD i 0) k - com P2 k))]
  refine Finset.sum_congr rfl fun i _ => ?_
  have h1 : P1.getD (i : ℕ) 0 = P1.get i := by
    rw [List.getD_eq_get _ _ i.isLt]
  have hb : (i : ℕ) < P2.length := hlen ▸ i.isLt
  have h2 : P2.getD (i : ℕ) 0 = P2.get (Fin.cast hlen i) := by
    rw [List.getD_eq_get _ _ hb]; rfl
  rw [h1, h2]
  rfl

theorem crossCovariance_is_centered_product_witness :
    (crossCovariance [fun _ => (1 : ℚ)] [fun _ => (1 : ℚ)] =
      (centeredMatrix [fun _ => (1 : ℚ)])ᵀ *
        (centeredMatrix [fun _ => (1 : ℚ)]).submatrix (Fin.cast rfl) id) ∧
    ∀ j k, crossCovariance [fun _ => (1 : ℚ)] [fun _ => (1 : ℚ)] j k =
      ∑ i ∈ Finset.range ([fun _ => (1 : ℚ)] : List (Pt ℚ)).length,
        ((([fun _ => (1 : ℚ)] : List (Pt ℚ)).getD i 0) j -
            com [fun _ => (1 : ℚ)] j) *
          ((([fun _ => (1 : ℚ)] : List (Pt ℚ)).getD i 0) k -
            com [fun _ => (1 : ℚ)] k) :=
  crossCovariance_is_centered_product [fun _ => 1] [fun _ => 1] rfl

/-- C8: both the `RMSDCalculator` constructor and
`get_align_transformation_for_two_list_of_residues` use only backbone atoms:
for every residue, exactly the atoms named `N`, `CA`, `C` or `O` contribute
coordinates, and every atom with any other name is ignored. -/
theorem backbone_atoms_only (residue_list residue_list1 residue_list2 : List (Residue K))
    (residue_id_list : List Nat) (svd : Mat3 K → SVDResult K) :
    validAtoms = ["N", "CA", "C", "O"] ∧
    get_bb_coords_by_rosetta_ids residue_list =
      residue_list.flatMap (fun r =>
        (r.filter (fun atom => decide (atom.name ∈ validAtoms))).map Atom.coord) ∧
    (mkRMSDCalculator residue_list1 residue_list2 residue_id_list).coord1 =
      residue_id_list.flatMap (fun residue =>
        ((residue_list1.getD (residue - 1) []).filter
          (fun atom => decide (atom.name ∈ validAtoms))).map Atom.coord) ∧
    (mkRMSDCalculator residue_list1 residue_list2 residue_id_list).coord2 =
      residue_id_list.flatMap (fun residue =>
        ((residue_list2.getD (residue - 1) []).filter
          (fun atom => decide (atom.name ∈ validAtoms))).map Atom.coord) ∧
    get_align_transformation_for_two_list_of_residues svd residue_list1 residue_list2 =
      (if residue_list1.length ≠ residue_list2.length then none
       else get_superimpose_transformation svd
         (get_bb_coords_by_rosetta_ids residue_list1)
         (get_bb_coords_by_rosetta_ids residue_list2)) :=
  ⟨rfl, get_bb_coords_eq residue_list,
    (mkRMSDCalculator_coords residue_list1 residue_list2 residue_id_list).1,
    (mkRMSDCalculator_coords residue_list1 residue_list2 residue_id_list).2, rfl⟩

/-- C9: `RMSDCalculator.rmsd` divides by the number of rows of `diff` with no
guard: the divisor is exactly the length of the stored difference array, it is
`0` when `coord1` is empty, and under the precondition that a backbone
coordinate pair was collected (both stored arrays non-empty) it is nonzero,
so the division by zero is unreachable. -/
theorem rmsd_division_guard (residue_list1 residue_list2 : List (Residue ℝ))
    (residue_id_list : List Nat) (tr : Option (Mat3 ℝ × Pt ℝ)) :
    (RMSDCalculator.rmsd (mkRMSDCalculator residue_list1 residue_list2 residue_id_list) tr =
      Real.sqrt ((∑ j : Fin 3,
        (((mkRMSDCalculator residue_list1 residue_list2 residue_id_list).diffRows tr).map
          (fun d => d j * d j)).sum) /
        ((((mkRMSDCalculator residue_list1 residue_list2 residue_id_list).diffRows tr)).length : ℝ))) ∧
    ((mkRMSDCalculator residue_list1 residue_list2 residue_id_list).coord1 = [] →
      (((mkRMSDCalculator residue_list1 residue_list2 residue_id_list).diffRows tr)).length = 0) ∧
    ((mkRMSDCalculator residue_list1 residue_list2 residue_id_list).coord1 ≠ [] →
      (mkRMSDCalculator residue_list1 residue_list2 residue_id_list).coord2 ≠ [] →
      ((((mkRMSDCalculator residue_list1 residue_list2 residue_id_list).diffRows tr)).length : ℝ) ≠ 0) := by
  set c := mkRMSDCalculator residue_list1 residue_list2 residue_id_list with hc
  refine ⟨rfl, ?_, ?_⟩
  · intro h1
    cases tr with
    | none => simp [RMSDCalculator.diffRows, h1]
    | some Mt => rcases Mt with ⟨M, t⟩; simp [RMSDCalculator.diffRows, h1]
  · intro h1 h2
    have l1 : 0 < c.coord1.length := List.length_pos.mpr h1
    have l2 : 0 < c.coord2.length := List.length_pos.mpr h2
    have hlen : 0 < (c.diffRows tr).length := by
      cases tr with
      | none => simp [RMSDCalculator.diffRows]; omega
      | some Mt =>
        rcases Mt with ⟨M, t⟩
        simp [RMSDCalculator.diffRows]; omega
    exact Nat.cast_ne_zero.mpr (by omega)

theorem rmsd_division_guard_witness :
    ((((mkRMSDCalculator [[⟨"CA", fun _ => (0 : ℝ)⟩]] [[⟨"CA", fun _ => 0⟩]] [1]).diffRows
      none)).length : ℝ) ≠ 0 := by
  refine (rmsd_division_guard [[⟨"CA", fun _ => 0⟩]] [[⟨"CA", fun _ => 0⟩]] [1] none).2.2 ?_ ?_
  · rw [(mkRMSDCalculator_coords _ _ _).1]
    simp [validAtoms]
  · rw [(mkRMSDCalculator_coords _ _ _).2]
    simp [validAtoms]

end MoreClaims

/-! ### The rmsd formula (claim C3) -/

section RmsdFormula

theorem rmsd_branch (as bs : List (Pt ℝ)) (n : ℕ) (ha : as.length = n)
    (hb : bs.length = n) :
    (∑ j : Fin 3, ((List.zipWith (fun a b => a - b) as bs).map
        (fun d => d j * d j)).sum) /
      ((List.zipWith (fun a b : Pt ℝ => a - b) as bs).length : ℝ)
    = (1 / (n : ℝ)) * ∑ i ∈ Finset.range n, sqDist (as.getD i 0) (bs.getD i 0) := by
  have hlen : (List.zipWith (fun a b : Pt ℝ => a - b) as bs).length = n := by
    rw [List.length_zipWith, ha, hb, min_self]
  have hsum : ∀ j : Fin 3,
      ((List.zipWith (fun a b => a - b) as bs).map (fun d => d j * d j)).sum =
      ∑ i ∈ Finset.range n,
        ((as.getD i 0 - bs.getD i 0) j * (as.getD i 0 - bs.getD i 0) j) := by
    intro j
    rw [map_sum_eq_sum_range _ 0, hlen]
    refine Finset.sum_congr rfl fun i hi => ?_
    have hi' := Finset.mem_range.mp hi
    rw [zipWith_sub_getD (by omega) (by omega)]
  rw [hlen]
  have hflip : (∑ j : Fin 3, ((List.zipWith (fun a b => a - b) as bs).map
      (fun d => d j * d j)).sum)
      = ∑ i ∈ Finset.range n, sqDist (as.getD i 0) (bs.getD i 0) := by
    rw [Finset.sum_congr rfl fun j _ => hsum j, Finset.sum_comm]
    refine Finset.sum_congr rfl fun i _ => ?_
    unfold sqDist
    refine Finset.sum_congr rfl fun j _ => ?_
    rw [Pi.sub_apply]
  rw [hflip]
  ring

/-- C3: `rmsd()` with no transformation returns the square root of the mean
of the squared Euclidean distances between corresponding stored coordinates;
when a transformation `(M, t)` is given, the same formula is computed after
first replacing each `coord1[i]` by `M * coord1[i] + t`. -/
theorem rmsd_is_root_mean_square (c : RMSDCalculator ℝ) (n : ℕ)
    (h1 : c.coord1.length = n) (h2 : c.coord2.length = n) (hpos : 1 ≤ n)
    (M : Mat3 ℝ) (t : Pt ℝ) :
    c.rmsd none = Real.sqrt ((1 / (n : ℝ)) *
      ∑ i ∈ Finset.range n, sqDist (c.coord1.getD i 0) (c.coord2.getD i 0)) ∧
    c.rmsd (some (M, t)) = Real.sqrt ((1 / (n : ℝ)) *
      ∑ i ∈ Finset.range n,
        sqDist (M.mulVec (c.coord1.getD i 0) + t) (c.coord2.getD i 0)) := by
  constructor
  · show Real.sqrt _ = _
    rw [show RMSDCalculator.diffRows c none =
        List.zipWith (fun a b => a - b) c.coord1 c.coord2 from rfl]
    rw [rmsd_branch c.coord1 c.coord2 n h1 h2]
  · show Real.sqrt _ = _
    rw [show RMSDCalculator.diffRows c (some (M, t)) =
        List.zipWith (fun a b => a - b)
          (c.coord1.map (fun p => M.mulVec p + t)) c.coord2 from rfl]
    rw [rmsd_branch (c.coord1.map (fun p => M.mulVec p + t)) c.coord2 n
      (by rw [List.length_map, h1]) h2]
    congr 1
    refine congrArg _ (Finset.sum_congr rfl fun i hi => ?_)
    have hi' := Finset.mem_range.mp hi
    have hm : (c.coord1.map (fun p => M.mulVec p + t)).getD i 0 =
        M.mulVec (c.coord1.getD i 0) + t := by
      have hlt : i < c.coord1.length := by omega
      have hlt2 : i < (c.coord1.map (fun p => M.mulVec p + t)).length := by
        rw [List.length_map]; omega
      rw [List.getD_eq_getElem _ _ hlt2, List.getD_eq_getElem _ _ hlt,
        List.getElem_map]
    rw [hm]

theorem rmsd_is_root_mean_square_witness :
    (RMSDCalculator.mk [fun _ => 0] [fun _ => 0]).rmsd none =
      Real.sqrt ((1 / ((1 : ℕ) : ℝ)) * ∑ i ∈ Finset.range 1,
        sqDist ((RMSDCalculator.mk [fun _ => 0] [fun _ => 0]).coord1.getD i 0)
          ((RMSDCalculator.mk [fun _ => 0] [fun _ => 0]).coord2.getD i 0)) ∧
    (RMSDCalculator.mk [fun _ => 0] [fun _ => 0]).rmsd (some (1, fun _ => 0)) =
      Real.sqrt ((1 / ((1 : ℕ) : ℝ)) * ∑ i ∈ Finset.range 1,
        sqDist ((1 : Mat3 ℝ).mulVec
            ((RMSDCalculator.mk [fun _ => 0] [fun _ => 0]).coord1.getD i 0) +
            fun _ => 0)
          ((RMSDCalculator.mk [fun _ => 0] [fun _ => 0]).coord2.getD i 0)) :=
  rmsd_is_root_mean_square (RMSDCalculator.mk [fun _ => 0] [fun _ => 0]) 1
    rfl rfl (le_refl 1) 1 (fun _ => 0)

end RmsdFormula

/-! ### Input validation in run_benchmark (claim C10) -/

section KickoffClaims

/-- C10: `run_benchmark` validates its inputs before touching the database:
when some pdb path does not exist on the filesystem, it raises `ValueError`
and neither a `Benchmarks` nor a `BenchmarkInputs` row is created and no job
is submitted, so the database state is unchanged. -/
theorem run_benchmark_validates_before_db (fsExists : String → Bool)
    (user name script : String) (pdbs0 vars : List String) (flags : Option String)
    (nstruct : Option Nat) (desc : Option String) (fast : Bool) (st : BenchState)
    (h : ∃ p ∈ pdbs0, fsExists p = false) :
    (run_benchmark fsExists user name script pdbs0 vars flags nstruct desc fast st).1
      = st ∧
    ((run_benchmark fsExists user name script pdbs0 vars flags nstruct desc fast st).2).isSome
      = true := by
  obtain ⟨p, hp, hfp⟩ := h
  have hmem : p ∈ pdbs0.mergeSort (fun a b => decide (a ≤ b)) :=
    List.mem_mergeSort.mpr hp
  have hfind : ((pdbs0.mergeSort (fun a b => decide (a ≤ b))).find?
      (fun q => !(fsExists q))).isSome :=
    List.find?_isSome.mpr ⟨p, hmem, by rw [hfp]; rfl⟩
  obtain ⟨q, hq⟩ := Option.isSome_iff_exists.mp hfind
  unfold run_benchmark
  simp only [hq]
  exact ⟨trivial, rfl⟩

theorem run_benchmark_validates_before_db_witness :
    (run_benchmark (fun _ => false) "user" "name" "script" ["a.pdb"] [] none none
      none false ⟨[], []⟩).1 = (⟨[], []⟩ : BenchState) ∧
    ((run_benchmark (fun _ => false) "user" "name" "script" ["a.pdb"] [] none none
      none false ⟨[], []⟩).2).isSome = true :=
  run_benchmark_validates_before_db (fun _ => false) "user" "name" "script"
    ["a.pdb"] [] none none none false ⟨[], []⟩
    ⟨"a.pdb", by simp, rfl⟩

end KickoffClaims

/-! ### The Kabsch optimality argument (claim C1)

The sum of squared distances after applying a rigid transformation `(M, t)`
splits as a constant part, a trace term `-2 * trace (M * R)` and a
nonnegative translation penalty; the transformation returned by
`get_superimpose_transformation` zeroes the penalty and maximises the trace
term over all proper rotations. -/

section KabschLemmas

variable {K : Type} [LinearOrderedField K]

theorem dot3_eq_dotProduct (u v : Pt K) : dot3 u v = u ⬝ᵥ v := rfl

theorem sq3_eq_dot3 (v : Pt K) : sq3 v = dot3 v v := rfl

theorem sq3_nonneg (v : Pt K) : 0 ≤ sq3 v :=
  Finset.sum_nonneg fun j _ => mul_self_nonneg (v j)

theorem sq3_zero : sq3 (0 : Pt K) = 0 := by
  simp [sq3]

theorem dot3_nonneg_self (v : Pt K) : 0 ≤ dot3 v v :=
  Finset.sum_nonneg fun j _ => mul_self_nonneg (v j)

theorem sq3_expand (x y z : Pt K) :
    sq3 (x - y + z) =
      sq3 x + sq3 y + sq3 z - 2 * dot3 x y + 2 * dot3 x z - 2 * dot3 y z := by
  simp only [sq3, dot3, Pi.add_apply, Pi.sub_apply, Finset.mul_sum,
    ← Finset.sum_add_distrib, ← Finset.sum_sub_distrib]
  exact Finset.sum_congr rfl fun j _ => by ring

theorem sq3_mulVec {M : Mat3 K} (hM : Mᵀ * M = 1) (x : Pt K) :
    sq3 (M.mulVec x) = sq3 x := by
  rw [sq3_eq_dot3, sq3_eq_dot3, dot3_eq_dotProduct, dot3_eq_dotProduct]
  calc (M.mulVec x) ⬝ᵥ (M.mulVec x)
      = ((M.mulVec x) ᵥ* M) ⬝ᵥ x := Matrix.dotProduct_mulVec _ M x
    _ = ((x ᵥ* Mᵀ) ᵥ* M) ⬝ᵥ x := by rw [Matrix.vecMul_transpose]
    _ = (x ᵥ* (Mᵀ * M)) ⬝ᵥ x := by rw [Matrix.vecMul_vecMul]
    _ = x ⬝ᵥ x := by rw [hM, Matrix.vecMul_one]

theorem dot3_mulVec_self {M : Mat3 K} (hM : Mᵀ * M = 1) (x : Pt K) :
    dot3 (M.mulVec x) (M.mulVec x) = dot3 x x := by
  rw [← sq3_eq_dot3, ← sq3_eq_dot3]; exact sq3_mulVec hM x

theorem length_ne_zero_cast {P : List (Pt K)} (hne : P ≠ []) :
    (P.length : K) ≠ 0 := by
  have h : P.length ≠ 0 := by
    intro h0; exact hne (List.length_eq_zero.mp h0)
  exact Nat.cast_ne_zero.mpr h

theorem sum_centered_eq_zero (P : List (Pt K)) (hne : P ≠ []) (j : Fin 3) :
    ∑ i ∈ Finset.range P.length, ((P.getD i 0) j - com P j) = 0 := by
  rw [Finset.sum_sub_distrib, Finset.sum_const, Finset.card_range,
    ← map_sum_eq_sum_range (fun p => p j) (0 : Pt K) P, nsmul_eq_mul]
  unfold com
  rw [mul_div_cancel₀ _ (length_ne_zero_cast hne), sub_self]

theorem sum_dot3_zero {n : ℕ} {q : ℕ → Pt K} (u : Pt K)
    (hq : ∀ k : Fin 3, ∑ i ∈ Finset.range n, q i k = 0) :
    ∑ i ∈ Finset.range n, dot3 (q i) u = 0 := by
  unfold dot3
  rw [Finset.sum_comm]
  refine Finset.sum_eq_zero fun j _ => ?_
  rw [← Finset.sum_mul, hq j, zero_mul]

theorem sum_mulVec_centered_zero {n : ℕ} {q : ℕ → Pt K} (M : Mat3 K)
    (hq : ∀ k : Fin 3, ∑ i ∈ Finset.range n, q i k = 0) (k : Fin 3) :
    ∑ i ∈ Finset.range n, (M.mulVec (q i)) k = 0 := by
  have h : ∀ i, (M.mulVec (q i)) k = ∑ l : Fin 3, M k l * q i l := fun i => rfl
  rw [Finset.sum_congr rfl fun i _ => h i, Finset.sum_comm]
  refine Finset.sum_eq_zero fun l _ => ?_
  rw [← Finset.mul_sum, hq l, mul_zero]

theorem sum_dot3_eq_trace (M : Mat3 K) (n : ℕ) (q q' : ℕ → Pt K) :
    ∑ i ∈ Finset.range n, dot3 (M.mulVec (q i)) (q' i)
      = Matrix.trace (M * Matrix.of (fun j k => ∑ i ∈ Finset.range n, q i j * q' i k)) := by
  unfold Matrix.trace Matrix.diag dot3
  rw [Finset.sum_comm]
  refine Finset.sum_congr rfl fun j _ => ?_
  rw [Matrix.mul_apply]
  have h : ∀ i, (M.mulVec (q i)) j * q' i j = ∑ k : Fin 3, M j k * q i k * q' i j := by
    intro i
    rw [show (M.mulVec (q i)) j = ∑ k : Fin 3, M j k * q i k from rfl, Finset.sum_mul]
  rw [Finset.sum_congr rfl fun i _ => h i, Finset.sum_comm]
  refine Finset.sum_congr rfl fun k _ => ?_
  rw [Matrix.of_apply, Finset.mul_sum]
  exact Finset.sum_congr rfl fun i _ => by ring

theorem sumSq_decomp (P1 P2 : List (Pt K)) (hlen : P1.length = P2.length)
    (hne : P1 ≠ []) (M : Mat3 K) (t : Pt K) (hM : Mᵀ * M = 1) :
    sumSqDist P1 P2 M t =
      (∑ i ∈ Finset.range P1.length, sq3 (P1.getD i 0 - com P1))
      + (∑ i ∈ Finset.range P1.length, sq3 (P2.getD i 0 - com P2))
      - 2 * Matrix.trace (M * crossCovariance P1 P2)
      + (P1.length : K) * sq3 (M.mulVec (com P1) + t - com P2) := by
  have hne2 : P2 ≠ [] := by
    intro h0
    apply hne
    rw [← List.length_eq_zero, hlen, h0, List.length_nil]
  have hqsum : ∀ k : Fin 3,
      ∑ i ∈ Finset.range P1.length, (P1.getD i 0 - com P1) k = 0 :=
    fun k => sum_centered_eq_zero P1 hne k
  have hq'sum : ∀ k : Fin 3,
      ∑ i ∈ Finset.range P1.length, (P2.getD i 0 - com P2) k = 0 := by
    intro k
    rw [hlen]
    exact sum_centered_eq_zero P2 hne2 k
  have hterm : ∀ i, M.mulVec (P1.getD i 0) + t - P2.getD i 0
      = M.mulVec (P1.getD i 0 - com P1) - (P2.getD i 0 - com P2)
        + (M.mulVec (com P1) + t - com P2) := by
    intro i
    have h1 : M.mulVec (P1.getD i 0) =
        M.mulVec (P1.getD i 0 - com P1) + M.mulVec (com P1) := by
      rw [← Matrix.mulVec_add, sub_add_cancel]
    rw [h1]
    abel
  unfold sumSqDist
  rw [Finset.sum_congr rfl fun i _ => by rw [hterm i, sq3_expand]]
  simp only [Finset.sum_add_distrib, Finset.sum_sub_distrib, ← Finset.mul_sum]
  rw [Finset.sum_congr rfl fun i _ =>
    sq3_mulVec hM (P1.getD i 0 - com P1)]
  rw [Finset.sum_const, Finset.card_range, nsmul_eq_mul]
  rw [sum_dot3_zero _ (sum_mulVec_centered_zero M hqsum),
    sum_dot3_zero _ hq'sum]
  rw [show ∑ i ∈ Finset.range P1.length,
      dot3 (M.mulVec (P1.getD i 0 - com P1)) (P2.getD i 0 - com P2)
      = Matrix.trace (M * crossCovariance P1 P2) from
    sum_dot3_eq_trace M P1.length _ _]
  ring

theorem det_add_one_eq_zero {Z : Mat3 K} (hZ : Zᵀ * Z = 1) (hdet : Z.det = -1) :
    (Z + 1).det = 0 := by
  have h1 : (Z + 1)ᵀ = Zᵀ * (Z + 1) := by
    rw [Matrix.mul_add, hZ, mul_one, Matrix.transpose_add, Matrix.transpose_one]
    exact add_comm Zᵀ 1
  have h2 : (Z + 1).det = -(Z + 1).det := by
    conv_lhs => rw [← Matrix.det_transpose, h1]
    rw [Matrix.det_mul, Matrix.det_transpose, hdet, neg_one_mul]
  linarith

theorem exists_neg_one_eigenvector {Z : Mat3 K} (hZ : Zᵀ * Z = 1)
    (hdet : Z.det = -1) : ∃ v : Pt K, v ≠ 0 ∧ Z.mulVec v = -v := by
  obtain ⟨v, hv0, hv⟩ :=
    Matrix.exists_mulVec_eq_zero_iff.mpr (det_add_one_eq_zero hZ hdet)
  refine ⟨v, hv0, ?_⟩
  rw [Matrix.add_mulVec, Matrix.one_mulVec] at hv
  exact eq_neg_of_add_eq_zero_left hv

theorem vecMulVec_transpose_self (v : Pt K) :
    (Matrix.vecMulVec v v)ᵀ = Matrix.vecMulVec v v := by
  ext i j
  rw [Matrix.transpose_apply, Matrix.vecMulVec_apply, Matrix.vecMulVec_apply, mul_comm]

theorem vecMulVec_mul_self (v : Pt K) :
    Matrix.vecMulVec v v * Matrix.vecMulVec v v = dot3 v v • Matrix.vecMulVec v v := by
  ext i j
  rw [Matrix.mul_apply, Matrix.smul_apply, Matrix.vecMulVec_apply, smul_eq_mul]
  unfold dot3
  rw [Finset.sum_mul]
  refine Finset.sum_congr rfl fun k _ => ?_
  rw [Matrix.vecMulVec_apply, Matrix.vecMulVec_apply]
  ring

theorem trace_vecMulVec (v : Pt K) :
    Matrix.trace (Matrix.vecMulVec v v) = dot3 v v := by
  unfold Matrix.trace Matrix.diag dot3
  exact Finset.sum_congr rfl fun i _ => rfl

theorem trace_mul_vecMulVec (Z : Mat3 K) (v : Pt K) :
    Matrix.trace (Z * Matrix.vecMulVec v v) = dot3 v (Z.mulVec v) := by
  unfold Matrix.trace Matrix.diag dot3
  refine Finset.sum_congr rfl fun i _ => ?_
  rw [Matrix.mul_apply,
    show (Z.mulVec v) i = ∑ k : Fin 3, Z i k * v k from rfl, Finset.mul_sum]
  refine Finset.sum_congr rfl fun k _ => ?_
  rw [Matrix.vecMulVec_apply]
  ring

theorem dot3_neg_right (u v : Pt K) : dot3 u (-v) = -dot3 u v := by
  unfold dot3
  rw [← Finset.sum_neg_distrib]
  exact Finset.sum_congr rfl fun j _ => by rw [Pi.neg_apply]; ring

theorem orth_neg_det_trace_le {Z : Mat3 K} (hZ : Zᵀ * Z = 1)
    (hdet : Z.det = -1) : Matrix.trace Z ≤ 1 := by
  obtain ⟨v, hv0, hv⟩ := exists_neg_one_eigenvector hZ hdet
  have hspos : 0 < dot3 v v := by
    obtain ⟨j, hj⟩ := Function.ne_iff.mp hv0
    refine Finset.sum_pos' (fun k _ => mul_self_nonneg (v k))
      ⟨j, Finset.mem_univ j, ?_⟩
    exact mul_self_pos.mpr (by simpa using hj)
  have hsne : dot3 v v ≠ 0 := ne_of_gt hspos
  have hPsymm : ((1 : Mat3 K) - (dot3 v v)⁻¹ • Matrix.vecMulVec v v)ᵀ
      = (1 : Mat3 K) - (dot3 v v)⁻¹ • Matrix.vecMulVec v v := by
    rw [Matrix.transpose_sub, Matrix.transpose_one, Matrix.transpose_smul,
      vecMulVec_transpose_self]
  set P : Mat3 K := (1 : Mat3 K) - (dot3 v v)⁻¹ • Matrix.vecMulVec v v with hP
  have hPP : P * P = P := by
    rw [hP, Matrix.sub_mul, Matrix.mul_sub, Matrix.mul_sub, one_mul, mul_one,
      Matrix.smul_mul, one_mul, Matrix.mul_smul, vecMulVec_mul_self, smul_smul,
      smul_smul]
    rw [show (dot3 v v)⁻¹ * (dot3 v v)⁻¹ * dot3 v v = (dot3 v v)⁻¹ from by
      field_simp]
    abel
  have htrP : Matrix.trace P = 2 := by
    rw [hP, Matrix.trace_sub, Matrix.trace_smul, trace_vecMulVec,
      Matrix.trace_one, smul_eq_mul, inv_mul_cancel₀ hsne]
    norm_num
  have htrZA : Matrix.trace (Z * Matrix.vecMulVec v v) = -dot3 v v := by
    rw [trace_mul_vecMulVec, hv, dot3_neg_right]
  have hdecomp : Matrix.trace Z
      = Matrix.trace (Z * P) + (dot3 v v)⁻¹ * Matrix.trace (Z * Matrix.vecMulVec v v) := by
    have h1 : Z * P = Z - (dot3 v v)⁻¹ • (Z * Matrix.vecMulVec v v) := by
      rw [hP, Matrix.mul_sub, mul_one, Matrix.mul_smul]
    rw [h1, Matrix.trace_sub, Matrix.trace_smul, smul_eq_mul]
    ring
  have htrZP_eq : Matrix.trace (Z * P) = Matrix.trace (P * Z * P) :=
    calc Matrix.trace (Z * P) = Matrix.trace ((Z * P) * P) := by rw [mul_assoc, hPP]
      _ = Matrix.trace (P * (Z * P)) := Matrix.trace_mul_comm _ _
      _ = Matrix.trace (P * Z * P) := by rw [mul_assoc]
  have hsym : ∀ i k : Fin 3, P i k = P k i := by
    intro i k
    conv_lhs => rw [← hPsymm]
    rw [Matrix.transpose_apply]
  have hentry : ∀ i : Fin 3, (P * Z * P) i i ≤ P i i := by
    intro i
    have h1 : (P * Z * P) i i
        = dot3 (fun k => P k i) (Z.mulVec (fun k => P k i)) := by
      rw [Matrix.mul_apply]
      rw [Finset.sum_congr rfl fun j _ => by rw [Matrix.mul_apply, Finset.sum_mul]]
      rw [Finset.sum_comm]
      unfold dot3
      refine Finset.sum_congr rfl fun k _ => ?_
      rw [show (Z.mulVec (fun k => P k i)) k = ∑ j : Fin 3, Z k j * P j i from rfl,
        Finset.mul_sum]
      refine Finset.sum_congr rfl fun j _ => ?_
      rw [hsym i k]
      ring
    have h3 : dot3 (fun k => P k i) (fun k => P k i) = P i i := by
      have h4 : dot3 (fun k => P k i) (fun k => P k i) = (P * P) i i := by
        rw [Matrix.mul_apply]
        unfold dot3
        exact Finset.sum_congr rfl fun k _ => by rw [hsym i k]
      rw [h4, hPP]
    have h2 : dot3 (fun k => P k i) (Z.mulVec (fun k => P k i))
        ≤ dot3 (fun k => P k i) (fun k => P k i) := by
      have hcs := Finset.sum_mul_sq_le_sq_mul_sq Finset.univ
        (fun k => P k i) (Z.mulVec (fun k => P k i))
      have hiso := dot3_mulVec_self hZ (fun k => P k i)
      have hnn := dot3_nonneg_self (fun k => P k i : Pt K)
      have e1 : ∑ k : Fin 3, (fun k => P k i) k ^ 2
          = dot3 (fun k => P k i) (fun k => P k i) := by
        unfold dot3
        exact Finset.sum_congr rfl fun k _ => by rw [pow_two]
      have e2 : ∑ k : Fin 3, (Z.mulVec (fun k => P k i)) k ^ 2
          = dot3 (fun k => P k i) (fun k => P k i) := by
        rw [← hiso]
        unfold dot3
        exact Finset.sum_congr rfl fun k _ => by rw [pow_two]
      have e3 : ∑ k : Fin 3, (fun k => P k i) k * (Z.mulVec (fun k => P k i)) k
          = dot3 (fun k => P k i) (Z.mulVec (fun k => P k i)) := rfl
      rw [e1, e2, e3] at hcs
      nlinarith [hcs, hnn]
    rw [h1, ← h3]
    exact h2
  have htrPZP_le : Matrix.trace (P * Z * P) ≤ Matrix.trace P := by
    unfold Matrix.trace Matrix.diag
    exact Finset.sum_le_sum fun i _ => hentry i
  have hfin : Matrix.trace Z = Matrix.trace (P * Z * P) - 1 := by
    rw [hdecomp, htrZP_eq, htrZA]
    field_simp
    ring
  rw [hfin, htrP] at *
  linarith

theorem orth_diag_le_one {Z : Mat3 K} (hZ : Zᵀ * Z = 1) (i : Fin 3) :
    Z i i ≤ 1 := by
  have hsum : ∑ j : Fin 3, Z i j * Z i j = 1 := by
    have h1 := congrFun (congrFun (orth_comm hZ) i) i
    rw [Matrix.mul_apply, Matrix.one_apply_eq] at h1
    rw [← h1]
    exact Finset.sum_congr rfl fun j _ => by rw [Matrix.transpose_apply]
  have hii : Z i i * Z i i ≤ 1 := by
    rw [← hsum]
    exact Finset.single_le_sum (f := fun j => Z i j * Z i j)
      (fun j _ => mul_self_nonneg _) (Finset.mem_univ i)
  nlinarith [hii, sq_nonneg (Z i i - 1)]

theorem trace_mul_diag (Z : Mat3 K) (S : Fin 3 → K) :
    Matrix.trace (Z * Matrix.diagonal S) = ∑ i : Fin 3, Z i i * S i := by
  unfold Matrix.trace Matrix.diag
  exact Finset.sum_congr rfl fun i _ => Matrix.mul_diagonal S Z i i

theorem trace_conj (A V D W : Mat3 K) :
    Matrix.trace (A * (V * D * W)) = Matrix.trace ((W * A * V) * D) := by
  rw [show A * (V * D * W) = (A * V * D) * W from by rw [← mul_assoc, ← mul_assoc],
    Matrix.trace_mul_comm, show W * (A * V * D) = (W * A * V) * D from by
      rw [← mul_assoc, ← mul_assoc]]

theorem weighted_diag_le_sum {Z : Mat3 K} {S : Fin 3 → K} (hZ : Zᵀ * Z = 1)
    (hS0 : ∀ i, 0 ≤ S i) :
    ∑ i : Fin 3, Z i i * S i ≤ ∑ i : Fin 3, S i :=
  Finset.sum_le_sum fun i _ =>
    mul_le_of_le_one_left (hS0 i) (orth_diag_le_one hZ i)

theorem weighted_diag_le_flip {Z : Mat3 K} {S : Fin 3 → K} (hZ : Zᵀ * Z = 1)
    (hdet : Z.det = -1) (hS0 : ∀ i, 0 ≤ S i)
    (hsort : ∀ i j : Fin 3, i ≤ j → S j ≤ S i) :
    ∑ i : Fin 3, Z i i * S i ≤ S 0 + S 1 - S 2 := by
  have htr : Z 0 0 + Z 1 1 + Z 2 2 ≤ 1 := by
    have h1 := orth_neg_det_trace_le hZ hdet
    rw [show Matrix.trace Z = Z 0 0 + Z 1 1 + Z 2 2 from by
      unfold Matrix.trace Matrix.diag
      rw [Fin.sum_univ_three]] at h1
    exact h1
  have h00 := orth_diag_le_one hZ 0
  have h11 := orth_diag_le_one hZ 1
  have h01 : S 1 ≤ S 0 := hsort 0 1 (by decide)
  have h12 : S 2 ≤ S 1 := hsort 1 2 (by decide)
  have h2 := hS0 2
  have e1 : 0 ≤ (S 1 - S 2) * (2 - (Z 0 0 + Z 1 1)) :=
    mul_nonneg (by linarith) (by linarith)
  have e2 : 0 ≤ (S 0 - S 1) * (1 - Z 0 0) :=
    mul_nonneg (by linarith) (by linarith)
  have e3 : 0 ≤ S 2 * (1 - (Z 0 0 + Z 1 1 + Z 2 2)) :=
    mul_nonneg (by linarith) (by linarith)
  rw [Fin.sum_univ_three]
  nlinarith [e1, e2, e3]

theorem Z_of_M_noflip {V W : Mat3 K} (hV : Vᵀ * V = 1) (hW : Wᵀ * W = 1) :
    W * (V * W)ᵀ * V = 1 := by
  rw [Matrix.transpose_mul, ← mul_assoc W Wᵀ Vᵀ, orth_comm hW, one_mul, hV]

theorem Z_of_M_flip {V W : Mat3 K} (hV : Vᵀ * V = 1) (hW : Wᵀ * W = 1)
    {D : Mat3 K} (hD : Dᵀ = D) :
    W * (V * D * W)ᵀ * V = D := by
  rw [Matrix.transpose_mul, Matrix.transpose_mul, hD,
    ← mul_assoc W Wᵀ (D * Vᵀ), orth_comm hW, one_mul, mul_assoc D Vᵀ V, hV, mul_one]

/-- C1: for equal-length non-empty 3D point lists, `get_superimpose_transformation`
returns a proper rigid transformation `(M, t)` that minimises the sum of squared
Euclidean distances between the transformed points of `P1` and the
corresponding points of `P2` over all proper (determinant `+1`) rigid-body
transformations, i.e. the optimal least-squares superposition computed by the
Kabsch algorithm.  The external `np.linalg.svd` result is assumed to satisfy
its contract (`IsSVD`). -/
theorem kabsch_superposition_optimal {svd : Mat3 K → SVDResult K}
    {P1 P2 : List (Pt K)} {M : Mat3 K} {t : Pt K} (hne : P1 ≠ [])
    (hsvd : IsSVD (crossCovariance P1 P2) (svd (crossCovariance P1 P2)))
    (hout : get_superimpose_transformation svd P1 P2 = some (M, t)) :
    (Mᵀ * M = 1 ∧ M.det = 1) ∧
    ∀ (M2 : Mat3 K) (t2 : Pt K), M2ᵀ * M2 = 1 → M2.det = 1 →
      sumSqDist P1 P2 M t ≤ sumSqDist P1 P2 M2 t2 := by
  obtain ⟨hV, hW, hR, hS0, hsort⟩ := hsvd
  obtain ⟨hlen, -, hM, ht⟩ := get_superimpose_eq_some hout
  have hproper := kabsch_M_proper hV hW
  have hMorth : Mᵀ * M = 1 := by rw [hM]; exact hproper.1
  have hMdet : M.det = 1 := by rw [hM]; exact hproper.2
  refine ⟨⟨hMorth, hMdet⟩, ?_⟩
  intro M2 t2 hM2 hdet2
  set res := svd (crossCovariance P1 P2) with hres
  have hd1 := sumSq_decomp P1 P2 hlen hne M t hMorth
  have hd2 := sumSq_decomp P1 P2 hlen hne M2 t2 hM2
  have hu0 : M.mulVec (com P1) + t - com P2 = 0 := by rw [ht]; abel
  have hpen : 0 ≤ (P1.length : K) * sq3 (M2.mulVec (com P1) + t2 - com P2) :=
    mul_nonneg (Nat.cast_nonneg _) (sq3_nonneg _)
  have htrace : Matrix.trace (M2 * crossCovariance P1 P2)
      ≤ Matrix.trace (M * crossCovariance P1 P2) := by
    rw [hR, trace_conj, trace_conj, trace_mul_diag, trace_mul_diag]
    have hZ2orth : (res.W * M2 * res.V)ᵀ * (res.W * M2 * res.V) = 1 :=
      orth_mul (orth_mul hW hM2) hV
    unfold branchV at hM
    by_cases hc : res.V.det * res.W.det < 0
    · rw [if_pos hc] at hM
      have hMVW : res.W * M * res.V = Matrix.diagonal ![1, 1, -1] := by
        rw [hM, negLastColumn_eq_mul]
        exact Z_of_M_flip hV hW (Matrix.diagonal_transpose _)
      rw [hMVW]
      have hRHS : ∑ i : Fin 3, (Matrix.diagonal ![1, 1, -1] : Mat3 K) i i * res.S i
          = res.S 0 + res.S 1 - res.S 2 := by
        rw [Fin.sum_univ_three, Matrix.diagonal_apply_eq, Matrix.diagonal_apply_eq,
          Matrix.diagonal_apply_eq]
        show (1 : K) * res.S 0 + 1 * res.S 1 + -1 * res.S 2 = _
        ring
      rw [hRHS]
      have hZ2det : (res.W * M2 * res.V).det = -1 := by
        rw [Matrix.det_mul, Matrix.det_mul, hdet2]
        rcases orth_det_sq hV with h | h <;> rcases orth_det_sq hW with h' | h' <;>
          rw [h, h'] at hc ⊢ <;> norm_num at hc ⊢
      exact weighted_diag_le_flip hZ2orth hZ2det hS0 hsort
    · rw [if_neg hc] at hM
      have hMVW : res.W * M * res.V = 1 := by
        rw [hM]; exact Z_of_M_noflip hV hW
      rw [hMVW]
      have hRHS : ∑ i : Fin 3, (1 : Mat3 K) i i * res.S i = ∑ i : Fin 3, res.S i :=
        Finset.sum_congr rfl fun i _ => by rw [Matrix.one_apply_eq, one_mul]
      rw [hRHS]
      exact weighted_diag_le_sum hZ2orth hS0
  rw [hd1, hd2, hu0, sq3_zero, mul_zero, add_zero]
  linarith [htrace, hpen]

theorem kabsch_superposition_optimal_witness :
    (((1 : Mat3 ℚ)ᵀ * 1 = 1 ∧ (1 : Mat3 ℚ).det = 1) ∧
      sumSqDist [fun _ => (0 : ℚ)] [fun _ => 1] 1 ((fun _ => 1) - fun _ => 0)
        ≤ sumSqDist [fun _ => (0 : ℚ)] [fun _ => 1] 1 (fun _ => 5)) := by
  have h := @kabsch_superposition_optimal ℚ _ svdTrivial
    [fun _ => 0] [fun _ => 1] 1 ((fun _ => 1) - fun _ => 0) (by simp)
    (by rw [crossCovariance_single]; exact isSVD_trivial_zero)
    (get_superimpose_trivial (fun _ => 0) (fun _ => 1))
  exact ⟨h.1, h.2 1 (fun _ => 5) (by simp) Matrix.det_one⟩

end KabschLemmas

end LoopModeling
